import Mathlib

/-!
Verification development for the identity-services lookup storage manager
(`src/backend/src/IdentityStorageManager.ts`).

The manager keeps a collection of identity records (modelled as a
`List IdentityRecord`, insertion-ordered as MongoDB returns documents in
natural order for these queries) and exposes five query methods plus
store/delete.  The fuzzy search path builds a JavaScript `RegExp` from user
input (`getFuzzyRegex`): it first escapes regex metacharacters, then splits
the *escaped* string into single characters and joins them with `.*`, and
compiles the result with the `i` (case-insensitive) flag.

The regex model below covers exactly the fragment of JavaScript regex
syntax reachable from patterns whose characters are plain literals, `.`,
`*`, and `\` followed by `.`; any other construct makes the parser return
`none`.  For the inputs used in the theorems below this coincides with
JavaScript behaviour, where `none` stands for a thrown `SyntaxError`:
a quantifier with nothing to repeat (`**`) and a dangling `\` are syntax
errors in JavaScript as well.  A `.` atom matches any character except the
four line terminators (U+000A, U+000D, U+2028, U+2029), as in JavaScript
without the `s` flag; the `i` flag is modelled by comparing characters
through `Char.toLower`.
-/

namespace IdSvc

/-- Atoms of the modelled regex fragment: a literal character or `.` . -/
inductive Atom
  | lit (c : Char)
  | dot
deriving DecidableEq

/-- A parsed regex token: an atom, possibly carrying a `*` quantifier. -/
structure Tok where
  atom : Atom
  starred : Bool
deriving DecidableEq

/-- The four JavaScript line terminators, which `.` does not match. -/
def isLineTerminator (c : Char) : Bool :=
  c == Char.ofNat 10 || c == Char.ofNat 13 || c == Char.ofNat 0x2028 || c == Char.ofNat 0x2029

/-- Whether a token's atom matches one character (case-insensitively,
modelling the `i` flag). -/
def tokMatches (t : Tok) (c : Char) : Bool :=
  match t.atom with
  | .lit l => l.toLower == c.toLower
  | .dot => !(isLineTerminator c)

/-- Fuelled backtracking matcher: `ts` against a prefix of `s`.  Each
step consumes a token or a character, so `ts.length + s.length + 1` fuel
always suffices; the fuel only makes the recursion structural. -/
def matchesPreFuel : Nat → List Tok → List Char → Bool
  | 0, _, _ => false
  | _ + 1, [], _ => true
  | n + 1, t :: ts, [] => t.starred && matchesPreFuel n ts []
  | n + 1, t :: ts, c :: s =>
    if t.starred then
      matchesPreFuel n ts (c :: s) || (tokMatches t c && matchesPreFuel n (t :: ts) s)
    else
      tokMatches t c && matchesPreFuel n ts s

/-- The matcher's value does not depend on the fuel, once sufficient. -/
theorem matchesPreFuel_irrel :
    ∀ (n m : Nat) (ts : List Tok) (s : List Char),
      ts.length + s.length < n → ts.length + s.length < m →
      matchesPreFuel n ts s = matchesPreFuel m ts s := by
  intro n
  induction n with
  | zero => intro m ts s hn; omega
  | succ n ih =>
    intro m ts s hn hm
    match m with
    | 0 => omega
    | Nat.succ m =>
      match ts with
      | [] => rfl
      | t :: ts =>
        match s with
        | [] =>
          simp only [matchesPreFuel]
          rw [ih m ts [] (by simp at hn ⊢; omega) (by simp at hm ⊢; omega)]
        | c :: s =>
          simp only [matchesPreFuel]
          rw [ih m ts (c :: s) (by simp at hn ⊢; omega) (by simp at hm ⊢; omega),
              ih m (t :: ts) s (by simp at hn ⊢; omega) (by simp at hm ⊢; omega),
              ih m ts s (by simp at hn ⊢; omega) (by simp at hm ⊢; omega)]

/-- `matchesPre ts s = true` iff the token sequence `ts` matches some
prefix of `s` (standard backtracking regex semantics). -/
def matchesPre (ts : List Tok) (s : List Char) : Bool :=
  matchesPreFuel (ts.length + s.length + 1) ts s

/-- `testToks ts s` : the pattern matches somewhere inside `s`
(JavaScript `RegExp.prototype.test`, unanchored search). -/
def testToks (ts : List Tok) : List Char → Bool
  | [] => matchesPre ts []
  | c :: s => matchesPre ts (c :: s) || testToks ts s

/-- The metacharacters escaped by the source:
`input.replace(/[.*+?^${}()|[\]\\]/g, backslash-dollar-amp)`. -/
def metachars : List Char :=
  ['.', '*', '+', '?', '^', '$', '{', '}', '(', ')', '|', '[', ']', '\\']

/-- Raw metacharacters outside the modelled regex fragment; the parser
refuses them. -/
def rawMeta : List Char :=
  ['+', '?', '^', '$', '{', '}', '(', ')', '|', '[', ']']

/-- One step of the source's escaping `replace`: a metacharacter becomes
backslash-then-itself, any other character is kept. -/
def escapeChar (c : Char) : List Char :=
  if c ∈ metachars then ['\\', c] else [c]

/-- The whole escaping pass over the input. -/
def escapeInput (s : List Char) : List Char :=
  s.flatMap escapeChar

/-- The source's `escapedInput.split('').join('.*')`: every character of
the (already escaped) string, with `.*` inserted between consecutive
characters. -/
def fuzzyJoin : List Char → List Char
  | [] => []
  | [c] => [c]
  | c :: rest => c :: '.' :: '*' :: fuzzyJoin rest

/-- Parser for the modelled fragment of JavaScript regex syntax.
`none` is a `SyntaxError` (dangling `\`, quantifier with nothing to
repeat, a doubled quantifier) or a construct outside the fragment. -/
def parseAux : List Char → List Tok → Option (List Tok)
  | [], acc => some acc.reverse
  | c :: rest, acc =>
    if c = '\\' then
      match rest with
      | [] => none
      | d :: rest2 =>
        if d = '.' then parseAux rest2 (⟨.lit '.', false⟩ :: acc) else none
    else if c = '.' then
      parseAux rest (⟨.dot, false⟩ :: acc)
    else if c = '*' then
      match acc with
      | [] => none
      | t :: acc2 => if t.starred then none else parseAux rest (⟨t.atom, true⟩ :: acc2)
    else if c ∈ rawMeta then
      none
    else
      parseAux rest (⟨.lit c, false⟩ :: acc)

/-- Parse a whole pattern string. -/
def parseRegex (s : List Char) : Option (List Tok) :=
  parseAux s []

/-- The source's `getFuzzyRegex`: escape the input, split it into single
characters, join with `.*`, compile.  `none` models a thrown
`SyntaxError` from the `RegExp` constructor. -/
def getFuzzyRegex (input : List Char) : Option (List Tok) :=
  parseRegex (fuzzyJoin (escapeInput input))

/-- Running the compiled fuzzy regex against a target string, `none` when
the regex construction itself fails. -/
def fuzzyTest (input target : List Char) : Option Bool :=
  (getFuzzyRegex input).map (fun toks => testToks toks target)

/-- The token list `getFuzzyRegex` yields on a metacharacter-free input:
the input's characters as literals, separated by starred dots. -/
def fuzzyToks : List Char → List Tok
  | [] => []
  | [c] => [⟨.lit c, false⟩]
  | c :: rest => ⟨.lit c, false⟩ :: ⟨.dot, true⟩ :: fuzzyToks rest

/-- An identity certificate as stored (`@bsv/sdk` `Certificate`): the
fields the queries touch, with `fields` as an ordered key/value list
(JavaScript object entries). -/
structure Certificate where
  subject : String
  certifier : String
  type : String
  serialNumber : String
  fields : List (String × String)
deriving DecidableEq

/-- A stored identity record (the documents of the `identityRecords`
collection). -/
structure IdentityRecord where
  txid : String
  outputIndex : Nat
  certificate : Certificate
  createdAt : Nat
  searchableAttributes : String
deriving DecidableEq

/-- The `{ txid, outputIndex }` projection every query returns. -/
structure UTXOReference where
  txid : String
  outputIndex : Nat
deriving DecidableEq

/-- The document fields the manager's queries constrain. -/
inductive Field
  | certifier
  | subject
  | ctype
  | serialNumber
  | searchable
  | certField (name : String)
deriving DecidableEq

/-- One clause of a query: `$in` set membership (with a possibly
undefined set), exact equality, or a regex condition. -/
inductive Clause
  | inSet (f : Field) (vals : Option (List String))
  | eqVal (f : Field) (v : String)
  | fuzzy (f : Field) (toks : List Tok)
deriving DecidableEq

/-- A conjunctive query: the list of its clauses (the source's `$and`
array, or the keys of a plain query object). -/
abbrev Query := List Clause

/-- The value a record holds at a queried field; `none` when a
`certificate.fields` key is absent from the document. -/
def fieldValue (r : IdentityRecord) : Field → Option String
  | .certifier => some r.certificate.certifier
  | .subject => some r.certificate.subject
  | .ctype => some r.certificate.type
  | .serialNumber => some r.certificate.serialNumber
  | .searchable => some r.searchableAttributes
  | .certField k => r.certificate.fields.lookup k

/-- Modelled from the spec: clause evaluation by the abstract record
store (the real store is the external MongoDB collaborator, outside
`src/`).  Membership in an undefined certifier set matches nothing
(the spec's "empty-set-membership semantics"); equality and regex
conditions on a missing field match nothing. -/
def evalClause (r : IdentityRecord) : Clause → Bool
  | .inSet f vals =>
    match vals, fieldValue r f with
    | some vs, some v => vs.contains v
    | _, _ => false
  | .eqVal f v =>
    match fieldValue r f with
    | some w => w == v
    | none => false
  | .fuzzy f toks =>
    match fieldValue r f with
    | some w => testToks toks w.data
    | none => false

/-- A record satisfies a query iff it satisfies every clause. -/
def evalQuery (q : Query) (r : IdentityRecord) : Bool :=
  q.all (fun c => evalClause r c)

/-- The source's `findRecordWithQuery`: run the query, project each hit
to `{ txid, outputIndex }`.  Modelled from the spec on the store side:
`find` is a read-only predicate query. -/
def findRecordWithQuery (records : List IdentityRecord) (q : Query) : List UTXOReference :=
  (records.filter (fun r => evalQuery q r)).map (fun r => ⟨r.txid, r.outputIndex⟩)

/-- The `searchableAttributes` computation inside `storeRecord`:
entries of `certificate.fields` minus `profilePhoto` and `icon`,
values joined with single spaces. -/
def computeSearchableAttributes (fields : List (String × String)) : String :=
  String.intercalate " "
    ((fields.filter (fun kv => kv.1 != "profilePhoto" && kv.1 != "icon")).map (fun kv => kv.2))

/-- The source's `storeRecord`: insert one new document (`now` stands for
the `new Date()` timestamp). -/
def storeRecord (txid : String) (outputIndex : Nat) (certificate : Certificate) (now : Nat)
    (records : List IdentityRecord) : List IdentityRecord :=
  records ++ [{ txid := txid, outputIndex := outputIndex, certificate := certificate,
                createdAt := now,
                searchableAttributes := computeSearchableAttributes certificate.fields }]

/-- The source's `deleteRecord`: `deleteOne` removes at most the first
document matching the `(txid, outputIndex)` filter. -/
def deleteRecord (txid : String) (outputIndex : Nat)
    (records : List IdentityRecord) : List IdentityRecord :=
  records.eraseP (fun r => r.txid == txid && r.outputIndex == outputIndex)

/-- The query object `findByAttribute` builds once its input validation
has passed: the certifier `$in` clause first, then either one fuzzy
clause on `searchableAttributes` (when the `any` key is present) or one
fuzzy clause per attribute against `certificate.fields.<key>`.
`none` models the `SyntaxError` thrown by `getFuzzyRegex`. -/
def buildAttributeQuery (attributes : List (String × String))
    (certifiers : Option (List String)) : Option Query :=
  let base : Query := [Clause.inSet Field.certifier certifiers]
  match attributes.lookup "any" with
  | some v =>
    (getFuzzyRegex v.data).map (fun toks => base ++ [Clause.fuzzy Field.searchable toks])
  | none =>
    (attributes.mapM (fun kv =>
        (getFuzzyRegex kv.2.data).map (fun toks => Clause.fuzzy (Field.certField kv.1) toks))).map
      (fun cs => base ++ cs)

/-- The source's `findByAttribute`.  `none` attributes model the
`undefined` argument; `none` in the result models a thrown error. -/
def findByAttribute (attributes : Option (List (String × String)))
    (certifiers : Option (List String))
    (records : List IdentityRecord) : Option (List UTXOReference) :=
  match attributes with
  | none => some []
  | some attrs =>
    if attrs.isEmpty then some []
    else (buildAttributeQuery attrs certifiers).map (fun q => findRecordWithQuery records q)

/-- The source's `findByIdentityKey`: only an `undefined` identity key is
rejected; the certifier clause is added only when the certifier list is
present and non-empty. -/
def findByIdentityKey (identityKey : Option String) (certifiers : Option (List String))
    (records : List IdentityRecord) : List UTXOReference :=
  match identityKey with
  | none => []
  | some k =>
    let base : Query := [Clause.eqVal Field.subject k]
    let q : Query :=
      match certifiers with
      | some cs => if cs.length > 0 then base ++ [Clause.inSet Field.certifier (some cs)] else base
      | none => base
    findRecordWithQuery records q

/-- The source's `findByCertifier`. -/
def findByCertifier (certifiers : Option (List String))
    (records : List IdentityRecord) : List UTXOReference :=
  match certifiers with
  | none => []
  | some cs =>
    if cs.length = 0 then []
    else findRecordWithQuery records [Clause.inSet Field.certifier (some cs)]

/-- The source's `findByCertificateType`: rejects an undefined or empty
type list, an undefined identity key, and an undefined or empty
certifier list. -/
def findByCertificateType (certificateTypes : Option (List String))
    (identityKey : Option String) (certifiers : Option (List String))
    (records : List IdentityRecord) : List UTXOReference :=
  match certificateTypes, identityKey, certifiers with
  | some ts, some k, some cs =>
    if ts.length = 0 || cs.length = 0 then []
    else
      findRecordWithQuery records
        [Clause.eqVal Field.subject k,
         Clause.inSet Field.certifier (some cs),
         Clause.inSet Field.ctype (some ts)]
  | _, _, _ => []

/-- The source's `findByCertificateSerialNumber`: rejects `undefined` and
the empty string. -/
def findByCertificateSerialNumber (serialNumber : Option String)
    (records : List IdentityRecord) : List UTXOReference :=
  match serialNumber with
  | none => []
  | some sn =>
    if sn = "" then []
    else findRecordWithQuery records [Clause.eqVal Field.serialNumber sn]

/-- The five query operations, as one operation type. -/
inductive FindOp
  | byAttribute (attributes : Option (List (String × String))) (certifiers : Option (List String))
  | byIdentityKey (identityKey : Option String) (certifiers : Option (List String))
  | byCertifier (certifiers : Option (List String))
  | byCertificateType (certificateTypes : Option (List String)) (identityKey : Option String)
      (certifiers : Option (List String))
  | bySerialNumber (serialNumber : Option String)

/-- Run one query operation against the record collection, returning its
result together with the collection after the call.  Modelled from the
spec on the store side: the store's predicate query (collaborator
contract item 3) reads and never writes, so the collection component is
the input collection. -/
def runFind (op : FindOp) (records : List IdentityRecord) :
    Option (List UTXOReference) × List IdentityRecord :=
  (match op with
   | .byAttribute a c => findByAttribute a c records
   | .byIdentityKey k c => some (findByIdentityKey k c records)
   | .byCertifier c => some (findByCertifier c records)
   | .byCertificateType t k c => some (findByCertificateType t k c records)
   | .bySerialNumber sn => some (findByCertificateSerialNumber sn records),
   records)


/-- The empty token list matches a prefix of anything. -/
theorem matchesPre_nil (s : List Char) : matchesPre [] s = true := by
  cases s <;> simp [matchesPre, matchesPreFuel]

/-- Step lemma: an unstarred token on empty input fails. -/
theorem matchesPre_unstarred_nil (a : Atom) (ts : List Tok) :
    matchesPre (⟨a, false⟩ :: ts) [] = false := by
  simp [matchesPre, matchesPreFuel]

/-- Step lemma: an unstarred token consumes the first character. -/
theorem matchesPre_unstarred_cons (a : Atom) (ts : List Tok) (c : Char) (s : List Char) :
    matchesPre (⟨a, false⟩ :: ts) (c :: s) =
      (tokMatches ⟨a, false⟩ c && matchesPre ts s) := by
  unfold matchesPre
  simp only [List.length_cons]
  rw [show ts.length + 1 + (s.length + 1) + 1 = (ts.length + 1 + (s.length + 1)) + 1 from rfl]
  simp only [matchesPreFuel, Bool.false_eq_true, if_false]
  congr 1
  exact matchesPreFuel_irrel _ _ ts s (by omega) (by omega)

/-- Step lemma: a starred token on empty input is skipped. -/
theorem matchesPre_starred_nil (a : Atom) (ts : List Tok) :
    matchesPre (⟨a, true⟩ :: ts) [] = matchesPre ts [] := by
  unfold matchesPre
  simp only [List.length_cons, List.length_nil]
  rw [show ts.length + 1 + 0 + 1 = (ts.length + 1 + 0) + 1 from rfl]
  simp only [matchesPreFuel, Bool.true_and]

/-- Step lemma: a starred token is skipped or consumes one character. -/
theorem matchesPre_starred_cons (a : Atom) (ts : List Tok) (c : Char) (s : List Char) :
    matchesPre (⟨a, true⟩ :: ts) (c :: s) =
      (matchesPre ts (c :: s) || (tokMatches ⟨a, true⟩ c && matchesPre (⟨a, true⟩ :: ts) s)) := by
  unfold matchesPre
  simp only [List.length_cons]
  rw [show ts.length + 1 + (s.length + 1) + 1 = (ts.length + 1 + (s.length + 1)) + 1 from rfl]
  simp only [matchesPreFuel, if_true]
  rw [matchesPreFuel_irrel (ts.length + 1 + (s.length + 1)) (ts.length + (s.length + 1) + 1)
        ts (c :: s) (by simp only [List.length_cons]; omega) (by simp only [List.length_cons]; omega),
      matchesPreFuel_irrel (ts.length + 1 + (s.length + 1)) (ts.length + 1 + s.length + 1)
        (⟨a, true⟩ :: ts) s (by simp only [List.length_cons]; omega)
        (by simp only [List.length_cons]; omega)]

/-- Step lemma: unanchored search on empty input. -/
theorem testToks_nil (ts : List Tok) : testToks ts [] = matchesPre ts [] := rfl

/-- Step lemma: unanchored search tries the current position, then the
next one. -/
theorem testToks_cons (ts : List Tok) (c : Char) (s : List Char) :
    testToks ts (c :: s) = (matchesPre ts (c :: s) || testToks ts s) := rfl

/-- Unfolding equation for `fuzzyToks` on a one-character input. -/
theorem fuzzyToks_single (c : Char) : fuzzyToks [c] = [⟨.lit c, false⟩] := rfl

/-- Unfolding equation for `fuzzyToks` on two or more characters. -/
theorem fuzzyToks_cons2 (c a : Char) (s : List Char) :
    fuzzyToks (c :: a :: s) = ⟨.lit c, false⟩ :: ⟨.dot, true⟩ :: fuzzyToks (a :: s) := rfl

/-- A full prefix match at the current position gives an unanchored match. -/
theorem testToks_of_matchesPre {ts : List Tok} {u : List Char}
    (h : matchesPre ts u = true) : testToks ts u = true := by
  cases u with
  | nil => simpa [testToks_nil] using h
  | cons c s => simp [testToks_cons, h]

/-- Dropping a starred dot from the pattern: the rest must match a prefix
of some suffix of the input. -/
theorem matchesPre_dotstar_suffix {ts : List Tok} :
    ∀ {u : List Char}, matchesPre (⟨.dot, true⟩ :: ts) u = true →
      ∃ u', u' <:+ u ∧ matchesPre ts u' = true := by
  intro u
  induction u with
  | nil =>
    intro h
    rw [matchesPre_starred_nil] at h
    exact ⟨[], List.suffix_refl [], h⟩
  | cons c u0 ih =>
    intro h
    rw [matchesPre_starred_cons, Bool.or_eq_true] at h
    rcases h with h1 | h2
    · exact ⟨c :: u0, List.suffix_refl _, h1⟩
    · rw [Bool.and_eq_true] at h2
      rcases h2 with ⟨_, h3⟩
      rcases ih h3 with ⟨u', hsuf, hm⟩
      exact ⟨u', hsuf.trans (List.suffix_cons c u0), hm⟩

/-- Conversely, over line-terminator-free input a starred dot absorbs any
leading characters: an unanchored match of the rest gives a prefix match
of the starred-dot pattern. -/
theorem matchesPre_dotstar_of_testToks {ts : List Tok} :
    ∀ {u : List Char}, (∀ c ∈ u, isLineTerminator c = false) →
      testToks ts u = true → matchesPre (⟨.dot, true⟩ :: ts) u = true := by
  intro u
  induction u with
  | nil =>
    intro _ h
    rw [testToks_nil] at h
    rw [matchesPre_starred_nil]
    exact h
  | cons c u0 ih =>
    intro hlt h
    rw [testToks_cons] at h
    rw [matchesPre_starred_cons]
    rw [Bool.or_eq_true] at h
    rcases h with h1 | h2
    · simp [h1]
    · have hm := ih (fun d hd => hlt d (List.mem_cons_of_mem c hd)) h2
      have hc : tokMatches ⟨.dot, true⟩ c = true := by
        simp [tokMatches, hlt c (List.mem_cons_self c u0)]
      simp [hm, hc]

/-- Soundness of the fuzzy pattern: a match forces the search string to be
a case-insensitive subsequence of the target. -/
theorem fuzzy_sound :
    ∀ (s t : List Char), testToks (fuzzyToks s) t = true →
      (s.map Char.toLower).Sublist (t.map Char.toLower) := by
  intro s
  induction s with
  | nil => intro t _; simp
  | cons c s' ih =>
    intro t
    induction t with
    | nil =>
      intro h
      exfalso
      cases s' with
      | nil =>
        rw [fuzzyToks_single, testToks_nil, matchesPre_unstarred_nil] at h
        exact Bool.false_ne_true h
      | cons a s'' =>
        rw [fuzzyToks_cons2, testToks_nil, matchesPre_unstarred_nil] at h
        exact Bool.false_ne_true h
    | cons d t' iht =>
      intro h
      rw [testToks_cons, Bool.or_eq_true] at h
      rcases h with h1 | h2
      · -- a prefix match starting at `d`
        cases s' with
        | nil =>
          rw [fuzzyToks_single, matchesPre_unstarred_cons, Bool.and_eq_true] at h1
          rcases h1 with ⟨hcd, _⟩
          have hcd : c.toLower = d.toLower := by
            simpa [tokMatches] using hcd
          have : ([c].map Char.toLower).Sublist ((d :: t').map Char.toLower) := by
            simp only [List.map_cons, List.map_nil, hcd]
            exact (List.nil_sublist (t'.map Char.toLower)).cons₂ d.toLower
          simpa using this
        | cons a s'' =>
          rw [fuzzyToks_cons2, matchesPre_unstarred_cons, Bool.and_eq_true] at h1
          rcases h1 with ⟨hcd, hrest⟩
          have hcd : c.toLower = d.toLower := by
            simpa [tokMatches] using hcd
          rcases matchesPre_dotstar_suffix hrest with ⟨u', hsuf, hm⟩
          have hsub : ((a :: s'').map Char.toLower).Sublist (u'.map Char.toLower) :=
            ih u' (testToks_of_matchesPre hm)
          have hsub2 : (u'.map Char.toLower).Sublist (t'.map Char.toLower) :=
            (hsuf.map Char.toLower).sublist
          have hfin := (hsub.trans hsub2).cons₂ c.toLower
          simpa [hcd] using hfin
      · exact List.sublist_cons_of_sublist d.toLower (iht h2)

/-- Completeness of the fuzzy pattern over line-terminator-free targets:
a case-insensitive subsequence is found by the pattern. -/
theorem fuzzy_complete :
    ∀ (s t : List Char), (∀ c ∈ t, isLineTerminator c = false) →
      (s.map Char.toLower).Sublist (t.map Char.toLower) →
      testToks (fuzzyToks s) t = true := by
  intro s
  induction s with
  | nil =>
    intro t _ _
    cases t with
    | nil => rw [testToks_nil]; exact matchesPre_nil []
    | cons c s =>
      show (matchesPre [] (c :: s) || testToks [] s) = true
      rw [matchesPre_nil]
      rfl
  | cons c s' ih =>
    intro t
    induction t with
    | nil =>
      intro _ h
      exact absurd h (by simp)
    | cons d t' iht =>
      intro hlt h
      have hlt' : ∀ e ∈ t', isLineTerminator e = false :=
        fun e he => hlt e (List.mem_cons_of_mem d he)
      simp only [List.map_cons] at h
      rcases List.sublist_cons_iff.mp h with h1 | ⟨r, hr, hrsub⟩
      · -- the whole subsequence sits inside `t'`
        have := iht hlt' (by simpa using h1)
        rw [testToks_cons, this]
        simp
      · -- heads agree up to case; match at this position
        rw [List.cons_eq_cons] at hr
        obtain ⟨hcd, hsr⟩ := hr
        have htail : (s'.map Char.toLower).Sublist (t'.map Char.toLower) := hsr ▸ hrsub
        have hmp : matchesPre (fuzzyToks (c :: s')) (d :: t') = true := by
          cases s' with
          | nil =>
            rw [fuzzyToks_single, matchesPre_unstarred_cons]
            simp [tokMatches, hcd, matchesPre_nil]
          | cons a s'' =>
            rw [fuzzyToks_cons2, matchesPre_unstarred_cons]
            have hrest := matchesPre_dotstar_of_testToks hlt'
              (ih t' hlt' htail)
            simp [tokMatches, hcd, hrest]
        rw [testToks_cons, hmp]
        simp

/-- Every raw metacharacter the parser refuses is one of the escaped
metacharacters. -/
theorem rawMeta_subset {c : Char} (h : c ∈ rawMeta) : c ∈ metachars := by
  simp only [rawMeta, List.mem_cons, List.not_mem_nil, or_false] at h
  rcases h with h | h | h | h | h | h | h | h | h | h | h <;> subst h <;> decide

/-- Unfolding equation for `parseAux` on the empty pattern. -/
theorem parseAux_nil (acc : List Tok) : parseAux [] acc = some acc.reverse := rfl

/-- Unfolding equation for `parseAux` on a non-empty pattern. -/
theorem parseAux_cons (c : Char) (rest : List Char) (acc : List Tok) :
    parseAux (c :: rest) acc =
      (if c = '\\' then
        match rest with
        | [] => none
        | d :: rest2 =>
          if d = '.' then parseAux rest2 (⟨.lit '.', false⟩ :: acc) else none
      else if c = '.' then
        parseAux rest (⟨.dot, false⟩ :: acc)
      else if c = '*' then
        match acc with
        | [] => none
        | t :: acc2 => if t.starred then none else parseAux rest (⟨t.atom, true⟩ :: acc2)
      else if c ∈ rawMeta then
        none
      else
        parseAux rest (⟨.lit c, false⟩ :: acc)) := by
  cases rest <;> cases acc <;> rfl

/-- Escaping is the identity on metacharacter-free input. -/
theorem escapeInput_metafree :
    ∀ (s : List Char), (∀ c ∈ s, c ∉ metachars) → escapeInput s = s := by
  intro s
  induction s with
  | nil => intro _; rfl
  | cons c s ih =>
    intro h
    have hs := ih (fun d hd => h d (List.mem_cons_of_mem c hd))
    have hc : escapeChar c = [c] := by
      simp [escapeChar, h c (List.mem_cons_self c s)]
    simp only [escapeInput, List.flatMap_cons]
    simp only [escapeInput] at hs
    rw [hc, hs]
    rfl

/-- Parsing the fuzzy join of a metacharacter-free string yields its
literal tokens separated by starred dots (accumulator form). -/
theorem parseAux_fuzzyJoin :
    ∀ (s : List Char), (∀ c ∈ s, c ∉ metachars) →
      ∀ (acc : List Tok), parseAux (fuzzyJoin s) acc = some (acc.reverse ++ fuzzyToks s) := by
  intro s
  induction s with
  | nil =>
    intro _ acc
    simp [fuzzyJoin, parseAux, fuzzyToks]
  | cons c s' ih =>
    intro h acc
    have hc : c ∉ metachars := h c (List.mem_cons_self c s')
    have hc1 : ¬(c = '\\') := fun e => hc (by rw [e]; decide)
    have hc2 : ¬(c = '.') := fun e => hc (by rw [e]; decide)
    have hc3 : ¬(c = '*') := fun e => hc (by rw [e]; decide)
    have hc4 : ¬(c ∈ rawMeta) := fun e => hc (rawMeta_subset e)
    cases s' with
    | nil =>
      show parseAux [c] acc = _
      rw [parseAux_cons]
      rw [if_neg hc1, if_neg hc2, if_neg hc3, if_neg hc4]
      rw [parseAux_nil]
      simp [fuzzyToks_single]
    | cons a s'' =>
      have key : parseAux (c :: '.' :: '*' :: fuzzyJoin (a :: s'')) acc
          = parseAux (fuzzyJoin (a :: s'')) (⟨.dot, true⟩ :: ⟨.lit c, false⟩ :: acc) := by
        rw [parseAux_cons]
        rw [if_neg hc1, if_neg hc2, if_neg hc3, if_neg hc4]
        rw [parseAux_cons]
        rw [if_neg (by decide : ¬(('.' : Char) = '\\')), if_pos (rfl : ('.' : Char) = '.')]
        rw [parseAux_cons]
        rw [if_neg (by decide : ¬(('*' : Char) = '\\')),
            if_neg (by decide : ¬(('*' : Char) = '.')), if_pos (rfl : ('*' : Char) = '*')]
        rfl
      show parseAux (c :: '.' :: '*' :: fuzzyJoin (a :: s'')) acc = _
      rw [key, ih (fun d hd => h d (List.mem_cons_of_mem c hd))
            (⟨.dot, true⟩ :: ⟨.lit c, false⟩ :: acc)]
      simp [fuzzyToks_cons2, List.append_assoc]

/-- On metacharacter-free input, `getFuzzyRegex` compiles successfully to
the literal-tokens-joined-by-starred-dots pattern. -/
theorem getFuzzyRegex_metafree {s : List Char} (h : ∀ c ∈ s, c ∉ metachars) :
    getFuzzyRegex s = some (fuzzyToks s) := by
  unfold getFuzzyRegex parseRegex
  rw [escapeInput_metafree s h, parseAux_fuzzyJoin s h []]
  simp

/-- Claim C1: for every search string containing regex metacharacters, the
pattern produced by `getFuzzyRegex` is claimed to match the input's
metacharacters literally.  The code violates this: its escape-then-split
pipeline separates each escaping backslash from the character it escapes,
so the pattern built from the input "." is backslash-dot-star-dot, which
matches the target "x" containing no literal dot, and the pattern built
from the input "*" is a doubled quantifier, which does not compile at all
(a thrown `SyntaxError`). -/
theorem claim1_metachar_not_literal :
    fuzzyTest ['.'] ['x'] = some true ∧ '.' ∉ ['x'] ∧ getFuzzyRegex ['*'] = none :=
  ⟨by decide, by decide, by decide⟩

/-- Claim C2: query methods are claimed never to throw on malformed input.
The code violates this: `findByAttribute` with the attribute value "*"
(certifiers present, store empty) propagates the `SyntaxError` thrown by
`getFuzzyRegex` (modelled as `none`) instead of returning a result
list. -/
theorem claim2_findByAttribute_raises :
    findByAttribute (some [("any", "*")]) (some ["c"]) [] = none := by decide

/-- Claim C3, counterexample to the claim as stated: the target obtained
by inserting a newline between the characters of "ab" is a (even
case-exact) supersequence of "ab", yet the fuzzy pattern rejects it,
because the wildcard the code uses is `.*` and `.` does not match line
terminators. -/
theorem claim3_counterexample :
    fuzzyTest ['a', 'b'] ['a', Char.ofNat 10, 'b'] = some false ∧
      (['a', 'b'].map Char.toLower).Sublist
        ((['a', Char.ofNat 10, 'b']).map Char.toLower) :=
  ⟨by decide, by decide⟩

/-- Claim C3 as amended: for every metacharacter-free search string `s`,
a match of the fuzzy pattern implies `s` is a case-insensitive
subsequence of the target (so targets whose characters are out of order
never match), and over targets free of line terminators the converse
holds as well: every target formed by inserting arbitrary
(non-line-terminator) characters around the characters of `s` matches,
case-insensitively. -/
theorem claim3_fuzzy_subsequence (s t : List Char) (hs : ∀ c ∈ s, c ∉ metachars) :
    (fuzzyTest s t = some true → (s.map Char.toLower).Sublist (t.map Char.toLower)) ∧
    ((∀ c ∈ t, isLineTerminator c = false) →
      ((s.map Char.toLower).Sublist (t.map Char.toLower) → fuzzyTest s t = some true)) := by
  have hreg := getFuzzyRegex_metafree hs
  constructor
  · intro h
    rw [fuzzyTest, hreg] at h
    have hb : testToks (fuzzyToks s) t = true := by simpa using h
    exact fuzzy_sound s t hb
  · intro hlt hsub
    rw [fuzzyTest, hreg]
    simp [fuzzy_complete s t hlt hsub]

/-- Witness for C3 at the spec's own example: the pattern from "ace"
matches "abcde" (obtained through the theorem) and rejects "aec". -/
theorem claim3_witness :
    fuzzyTest ['a', 'c', 'e'] ['a', 'b', 'c', 'd', 'e'] = some true ∧
      fuzzyTest ['a', 'c', 'e'] ['a', 'e', 'c'] = some false :=
  ⟨(claim3_fuzzy_subsequence ['a', 'c', 'e'] ['a', 'b', 'c', 'd', 'e']
      (by decide)).2 (by decide) (by decide),
   by decide⟩

/-- Claim C6, counterexample to the claim as stated: an empty-string
identity key is not rejected by `findByIdentityKey` — with a stored
record whose certificate subject is the empty string, the query returns
that record's reference instead of the empty list. -/
theorem claim6_counterexample :
    findByIdentityKey (some "") none
        [{ txid := "t1", outputIndex := 0,
           certificate := { subject := "", certifier := "c", type := "T",
                            serialNumber := "s", fields := [] },
           createdAt := 0, searchableAttributes := "" }]
      ≠ ([] : List UTXOReference) := by decide

/-- Claim C6 as amended: only an `undefined` identity key short-circuits
`findByIdentityKey` to the empty list (regardless of certifiers and the
store); an empty-string identity key is instead passed to the store as
an exact match on the empty subject. -/
theorem claim6_undefined_key_empty :
    (∀ (certifiers : Option (List String)) (records : List IdentityRecord),
        findByIdentityKey none certifiers records = []) ∧
    (∀ (records : List IdentityRecord),
        findByIdentityKey (some "") none records
          = findRecordWithQuery records [Clause.eqVal Field.subject ""]) := by
  exact ⟨fun _ _ => rfl, fun _ => rfl⟩

/-- Claim C8: `storeRecord` appends exactly one record carrying the given
txid, output index and certificate unchanged, whose
`searchableAttributes` is the space-joined concatenation of the
certificate's field values leaving out the `profilePhoto` and `icon`
entries. -/
theorem claim8_storeRecord_shape (txid : String) (outputIndex : Nat)
    (certificate : Certificate) (now : Nat) (records : List IdentityRecord) :
    storeRecord txid outputIndex certificate now records
      = records ++
        [{ txid := txid, outputIndex := outputIndex, certificate := certificate,
           createdAt := now,
           searchableAttributes :=
             String.intercalate " "
               (certificate.fields.filterMap (fun kv =>
                 if kv.1 = "profilePhoto" ∨ kv.1 = "icon" then none else some kv.2)) }] := by
  have hfm : ∀ (fields : List (String × String)),
      (fields.filter (fun kv => kv.1 != "profilePhoto" && kv.1 != "icon")).map
          (fun kv => kv.2)
        = fields.filterMap (fun kv =>
            if kv.1 = "profilePhoto" ∨ kv.1 = "icon" then none else some kv.2) := by
    intro fields
    induction fields with
    | nil => rfl
    | cons kv rest ih =>
      by_cases h1 : kv.1 = "profilePhoto"
      · simp [List.filter_cons, List.filterMap_cons, h1, ih]
      · by_cases h2 : kv.1 = "icon"
        · simp [List.filter_cons, List.filterMap_cons, h1, h2, ih]
        · simp [List.filter_cons, List.filterMap_cons, h1, h2, ih]
  rw [storeRecord, computeSearchableAttributes, hfm]

/-- Claim C10: every find operation leaves the record collection
unchanged, and the shared fetch-and-project step returns one
`(txid, outputIndex)` projection per matching stored record — the
number of occurrences of a reference among the results equals the
number of matching records projecting to it (duplicates included). -/
theorem claim10_find_readonly_projection :
    (∀ (op : FindOp) (records : List IdentityRecord), (runFind op records).2 = records) ∧
    (∀ (records : List IdentityRecord) (q : Query) (u : UTXOReference),
        (findRecordWithQuery records q).count u
          = (records.filter (fun r =>
              evalQuery q r &&
                decide (r.txid = u.txid ∧ r.outputIndex = u.outputIndex))).length) := by
  constructor
  · intro op records
    cases op <;> rfl
  · intro records q u
    rw [findRecordWithQuery, List.count_eq_countP, List.countP_map, List.countP_filter]
    rw [List.countP_eq_length_filter]
    apply congrArg List.length
    apply List.filter_congr
    intro r _
    show ((⟨r.txid, r.outputIndex⟩ : UTXOReference) == u && evalQuery q r)
        = (evalQuery q r && decide (r.txid = u.txid ∧ r.outputIndex = u.outputIndex))
    rw [Bool.and_comm]
    apply congrArg (evalQuery q r && ·)
    have : ((⟨r.txid, r.outputIndex⟩ : UTXOReference) = u)
        ↔ (r.txid = u.txid ∧ r.outputIndex = u.outputIndex) := by
      cases u with
      | mk a b => simp [UTXOReference.mk.injEq]
    rw [show ((⟨r.txid, r.outputIndex⟩ : UTXOReference) == u)
          = decide ((⟨r.txid, r.outputIndex⟩ : UTXOReference) = u) from rfl]
    simp [this]

/-- Claim C4, counterexample to the claim as stated: with the non-empty
attributes object mapping the `any` key to "*" and undefined certifiers,
`findByAttribute` does not return an empty result — it propagates the
regex `SyntaxError` (modelled as `none`) raised before the store is ever
consulted. -/
theorem claim4_counterexample :
    findByAttribute (some [("any", "*")]) none [] ≠ some [] ∧
      findByAttribute (some [("any", "*")]) none [] = none :=
  ⟨by decide, by decide⟩

/-- Claim C4 as amended: whenever `findByAttribute` succeeds in building
its query (the fuzzy patterns compile), that query's first clause is the
certifier-membership clause for the given certifiers, and when the
certifiers argument is undefined the membership clause matches nothing,
so the call returns an empty result; if a pattern fails to compile the
call instead propagates the regex error. -/
theorem claim4_certifier_first_clause (attrs : List (String × String)) :
    (∀ (certifiers : Option (List String)) (q : Query),
        buildAttributeQuery attrs certifiers = some q →
        q.head? = some (Clause.inSet Field.certifier certifiers)) ∧
    (∀ (q : Query) (records : List IdentityRecord),
        buildAttributeQuery attrs none = some q →
        findByAttribute (some attrs) none records = some []) := by
  have hfirst : ∀ (certifiers : Option (List String)) (q : Query),
      buildAttributeQuery attrs certifiers = some q →
      q.head? = some (Clause.inSet Field.certifier certifiers) := by
    intro cf q h
    cases hl : attrs.lookup "any" with
    | some v =>
      simp only [buildAttributeQuery, hl] at h
      cases hg : getFuzzyRegex v.data with
      | none => rw [hg] at h; exact absurd h (by simp)
      | some toks =>
        rw [hg] at h
        simp only [Option.map_some', Option.some.injEq] at h
        subst h
        rfl
    | none =>
      simp only [buildAttributeQuery, hl] at h
      cases hm : attrs.mapM (fun kv =>
          (getFuzzyRegex kv.2.data).map
            (fun toks => Clause.fuzzy (Field.certField kv.1) toks)) with
      | none => rw [hm] at h; exact absurd h (by simp)
      | some cs =>
        rw [hm] at h
        simp only [Option.map_some', Option.some.injEq] at h
        subst h
        rfl
  refine ⟨hfirst, ?_⟩
  intro q records h
  have hh := hfirst none q h
  rcases q with _ | ⟨c, q2⟩
  · simp at hh
  · simp only [List.head?_cons, Option.some.injEq] at hh
    subst hh
    by_cases he : attrs.isEmpty
    · simp [findByAttribute, he]
    · have hall : ∀ r ∈ records,
          evalQuery (Clause.inSet Field.certifier none :: q2) r = false := by
        intro r _
        simp [evalQuery, evalClause]
      simp only [findByAttribute, he, Bool.false_eq_true, if_false, h,
        Option.map_some']
      rw [findRecordWithQuery, List.filter_eq_nil_iff.mpr]
      · rfl
      · intro r hr
        simp [hall r hr]

/-- Witness for C4 at a concrete input: the query built for the
attribute object mapping "name" to "al" with undefined certifiers
starts with the (undefined-set) certifier clause, and the call returns
an empty result on the empty store. -/
theorem claim4_witness :
    ([Clause.inSet Field.certifier none,
      Clause.fuzzy (Field.certField "name")
        [⟨.lit 'a', false⟩, ⟨.dot, true⟩, ⟨.lit 'l', false⟩]] : Query).head?
        = some (Clause.inSet Field.certifier none) ∧
      findByAttribute (some [("name", "al")]) none [] = some [] :=
  ⟨(claim4_certifier_first_clause [("name", "al")]).1 none
      [Clause.inSet Field.certifier none,
       Clause.fuzzy (Field.certField "name")
         [⟨.lit 'a', false⟩, ⟨.dot, true⟩, ⟨.lit 'l', false⟩]] (by decide),
   (claim4_certifier_first_clause [("name", "al")]).2
      [Clause.inSet Field.certifier none,
       Clause.fuzzy (Field.certField "name")
         [⟨.lit 'a', false⟩, ⟨.dot, true⟩, ⟨.lit 'l', false⟩]] [] (by decide)⟩

/-- Claim C5, counterexample to the claim as stated: an empty-string
identity key does not force an empty result — with non-empty type and
certifier lists and a stored record whose subject is the empty string,
`findByCertificateType` returns that record's reference. -/
theorem claim5_counterexample :
    findByCertificateType (some ["T"]) (some "") (some ["c"])
        [{ txid := "t1", outputIndex := 0,
           certificate := { subject := "", certifier := "c", type := "T",
                            serialNumber := "s", fields := [] },
           createdAt := 0, searchableAttributes := "" }]
      = [{ txid := "t1", outputIndex := 0 }] := by decide

/-- Claim C5 as amended: `findByCertificateType` returns the empty list
when the type list is undefined or empty, the identity key is undefined,
or the certifier list is undefined or empty (an empty-string identity
key is not rejected); otherwise it returns exactly the references of the
records whose certificate subject equals the identity key, whose
certifier is a member of the certifier list, and whose type is a member
of the type list, all simultaneously. -/
theorem claim5_type_query_characterization (certificateTypes : Option (List String))
    (identityKey : Option String) (certifiers : Option (List String))
    (records : List IdentityRecord) :
    findByCertificateType certificateTypes identityKey certifiers records =
      match certificateTypes, identityKey, certifiers with
      | some ts, some k, some cs =>
        if ts = [] ∨ cs = [] then []
        else
          (records.filter (fun r =>
              decide (r.certificate.subject = k ∧ r.certificate.certifier ∈ cs ∧
                r.certificate.type ∈ ts))).map
            (fun r => ⟨r.txid, r.outputIndex⟩)
      | _, _, _ => [] := by
  rcases certificateTypes with _ | ts
  · rfl
  rcases identityKey with _ | k
  · rfl
  rcases certifiers with _ | cs
  · rfl
  show findByCertificateType (some ts) (some k) (some cs) records
      = if ts = [] ∨ cs = [] then []
        else
          (records.filter (fun r =>
              decide (r.certificate.subject = k ∧ r.certificate.certifier ∈ cs ∧
                r.certificate.type ∈ ts))).map
            (fun r => (⟨r.txid, r.outputIndex⟩ : UTXOReference))
  by_cases hts : ts = []
  · subst hts
    simp [findByCertificateType]
  by_cases hcs : cs = []
  · subst hcs
    simp [findByCertificateType]
  have h1 : ¬(ts.length = 0) := fun e => hts (List.length_eq_zero.mp e)
  have h2 : ¬(cs.length = 0) := fun e => hcs (List.length_eq_zero.mp e)
  rw [findByCertificateType]
  rw [if_neg (by simp [h1, h2]), if_neg (by simp [hts, hcs])]
  rw [findRecordWithQuery]
  congr 1
  apply List.filter_congr
  intro r _
  rw [Bool.eq_iff_iff]
  simp [evalQuery, evalClause, fieldValue, List.all_cons, List.contains, List.elem_iff,
    and_assoc]

/-- Counting helper for the roundtrip property: appending one fresh
matching record to the store adds exactly one occurrence of its
reference to a query's projected results. -/
theorem count_append_single_fresh (records : List IdentityRecord) (q : Query)
    (newRec : IdentityRecord) (ref : UTXOReference)
    (hfresh : ∀ r ∈ records, ¬(r.txid = ref.txid ∧ r.outputIndex = ref.outputIndex))
    (hnew : evalQuery q newRec = true)
    (ht : newRec.txid = ref.txid) (ho : newRec.outputIndex = ref.outputIndex) :
    (findRecordWithQuery (records ++ [newRec]) q).count ref = 1 := by
  rw [findRecordWithQuery, List.filter_append, List.map_append, List.count_append]
  have hold : ((records.filter (fun r => evalQuery q r)).map
      (fun r => (⟨r.txid, r.outputIndex⟩ : UTXOReference))).count ref = 0 := by
    rw [List.count_eq_zero]
    intro hmem
    rcases List.mem_map.mp hmem with ⟨r, hrf, hproj⟩
    refine hfresh r (List.mem_filter.mp hrf).1 ?_
    exact ⟨congrArg UTXOReference.txid hproj, congrArg UTXOReference.outputIndex hproj⟩
  have hone : (([newRec].filter (fun r => evalQuery q r)).map
      (fun r => (⟨r.txid, r.outputIndex⟩ : UTXOReference))).count ref = 1 := by
    rw [List.filter_cons, if_pos hnew]
    simp [List.count_cons, ht, ho]
  rw [hold, hone]

/-- Claim C7: storing a record at a reference not already present, then
querying by the certificate's subject with the certifier in the
allow-list, yields exactly one occurrence of the stored
`(txid, outputIndex)` reference among the results. -/
theorem claim7_store_then_find (txid : String) (outputIndex : Nat)
    (certificate : Certificate) (now : Nat) (certifiers : List String)
    (records : List IdentityRecord)
    (hfresh : ∀ r ∈ records, ¬(r.txid = txid ∧ r.outputIndex = outputIndex))
    (hcert : certificate.certifier ∈ certifiers) :
    (findByIdentityKey (some certificate.subject) (some certifiers)
        (storeRecord txid outputIndex certificate now records)).count
      ⟨txid, outputIndex⟩ = 1 := by
  have hne : certifiers.length > 0 := by
    cases certifiers with
    | nil => cases hcert
    | cons a l => simp
  simp only [findByIdentityKey]
  rw [if_pos hne, storeRecord]
  apply count_append_single_fresh
  · exact fun r hr => hfresh r hr
  · simp [evalQuery, evalClause, fieldValue, List.all_cons, List.contains, List.elem_iff,
      hcert]
  · rfl
  · rfl

/-- Witness for C7 on the spec's concrete scenario record. -/
theorem claim7_witness :
    (findByIdentityKey (some "pub1") (some ["cert1"])
        (storeRecord "t1" 0
          { subject := "pub1", certifier := "cert1", type := "typeA",
            serialNumber := "sn1", fields := [("name", "Alice Smith")] } 5 [])).count
      ⟨"t1", 0⟩ = 1 :=
  claim7_store_then_find "t1" 0
    { subject := "pub1", certifier := "cert1", type := "typeA",
      serialNumber := "sn1", fields := [("name", "Alice Smith")] }
    5 ["cert1"] [] (by simp) (by simp)

/-- Claim C9: when the attributes object contains the `any` key, the
built query is exactly the certifier clause plus one fuzzy clause
against `searchableAttributes` using the value of `any`, and every
other key is ignored — the call behaves identically to a call with the
singleton `any` attributes object. -/
theorem claim9_any_precedence (attrs : List (String × String)) (v : String)
    (h : attrs.lookup "any" = some v) :
    (∀ (certifiers : Option (List String)),
        buildAttributeQuery attrs certifiers
          = (getFuzzyRegex v.data).map (fun toks =>
              [Clause.inSet Field.certifier certifiers,
               Clause.fuzzy Field.searchable toks])) ∧
    (∀ (certifiers : Option (List String)) (records : List IdentityRecord),
        findByAttribute (some attrs) certifiers records
          = findByAttribute (some [("any", v)]) certifiers records) := by
  have hne : attrs.isEmpty = false := by
    cases attrs with
    | nil => simp [List.lookup] at h
    | cons kv rest => rfl
  have hbuild : ∀ (certifiers : Option (List String)),
      buildAttributeQuery attrs certifiers
        = (getFuzzyRegex v.data).map (fun toks =>
            [Clause.inSet Field.certifier certifiers,
             Clause.fuzzy Field.searchable toks]) := by
    intro cf
    simp only [buildAttributeQuery, h]
    rfl
  refine ⟨hbuild, ?_⟩
  intro cf records
  simp only [findByAttribute, hne, Bool.false_eq_true, if_false]
  rw [hbuild cf]
  rfl

/-- Witness for C9: with a second attribute key present alongside `any`,
the call coincides with the singleton-`any` call, and the built query is
the certifier clause plus one `searchableAttributes` fuzzy clause. -/
theorem claim9_witness :
    findByAttribute (some [("any", "bo"), ("name", "zz")]) (some ["c1"]) []
      = findByAttribute (some [("any", "bo")]) (some ["c1"]) [] ∧
    buildAttributeQuery [("any", "bo"), ("name", "zz")] (some ["c1"])
      = (getFuzzyRegex "bo".data).map (fun toks =>
          [Clause.inSet Field.certifier (some ["c1"]),
           Clause.fuzzy Field.searchable toks]) :=
  ⟨(claim9_any_precedence [("any", "bo"), ("name", "zz")] "bo" (by decide)).2
      (some ["c1"]) [],
   (claim9_any_precedence [("any", "bo"), ("name", "zz")] "bo" (by decide)).1
      (some ["c1"])⟩

end IdSvc
